import Mathlib

/-!
Verification of the realtime-subtitle streaming pipeline.

This file gives a shallow embedding of the core of the repository:

* `Transcriber.is_hallucination` and `Transcriber.transcribe`
  (src/transcriber.py) — the pure hallucination classifier and the
  filtering applied to engine output;
* `Translator.translate` (src/translator.py) — the translation call
  with its context slot and its error-recovery branches, with the
  engine call's outcome made an explicit parameter;
* `Pipeline.runAux` / `Pipeline.runPipeline` (src/main.py,
  `Pipeline.processing_loop`) — the orchestrator loop as a
  deterministic state machine over an environment that resolves the
  nondeterminism of the thread pools (when each future completes and
  with what result).

Events carry a ghost tag recording which of the four `emit` call
sites in `processing_loop` produced them; the payload triple
`(segment_id, original, translated)` is what the Qt signal carries.
-/

namespace Transcriber

/-- Python `str.split()` on a character list: split on whitespace,
dropping empty pieces.  `cur` accumulates the current word reversed. -/
def pyWordsAux (cur : List Char) : List Char → List (List Char)
  | [] => if cur = [] then [] else [cur.reverse]
  | c :: cs =>
    if c.isWhitespace then
      if cur = [] then pyWordsAux [] cs else cur.reverse :: pyWordsAux [] cs
    else pyWordsAux (c :: cur) cs

/-- `text.split()` from `Transcriber._is_hallucination` (src/transcriber.py:36). -/
def pySplit (s : String) : List String :=
  (pyWordsAux [] s.data).map String.mk

/-- The loop of src/transcriber.py:46-53 computing `max_repeats`:
state is `(max_repeats, current_repeats, last_word)`, initialized to
`(0, 1, "")`, and at the end `max(max_repeats, current_repeats)`. -/
def repeatsGo (max_repeats current_repeats : Nat) (last_word : String) :
    List String → Nat
  | [] => max max_repeats current_repeats
  | word :: rest =>
    if word = last_word then
      repeatsGo max_repeats (current_repeats + 1) last_word rest
    else
      repeatsGo (max max_repeats current_repeats) 1 word rest

/-- `max_repeats` as computed by src/transcriber.py:42-53. -/
def maxRepeats (words : List String) : Nat :=
  repeatsGo 0 1 "" words

/-- `Transcriber._is_hallucination` (src/transcriber.py:31-66).
The Python ratio test `len(unique_words)/len(words) < 0.4` is a float
comparison; with `u = len(set(words))` and `t = len(words)` it holds
exactly when `5*u < 2*t`: for u/t ≠ 2/5 the gap |u/t - 2/5| ≥ 1/(5t)
dwarfs double rounding error at these magnitudes, and for u/t = 2/5
the two sides round to the identical double.  We embed the exact
integer comparison. -/
def is_hallucination (text : String) : Bool :=
  if text = "" then false
  else
    let words := pySplit text
    if words = [] then false
    else if 4 < maxRepeats words then true
    else if 10 < words.length then
      if 5 * words.dedup.length < 2 * words.length then true else false
    else false

/-- The filtering step of `Transcriber.transcribe`
(src/transcriber.py:18-29): the engine text (already produced by the
external backend) is replaced by the empty string when the
hallucination classifier rejects it. -/
def transcribe (engine_text : String) : String :=
  if is_hallucination engine_text then "" else engine_text

/-! Specification-side notions used to state the claims about the
classifier: the longest run of immediately repeated identical tokens,
and the predicate that a token list contains a run of length `k`. -/

/-- Length of the leading run of token `w` in a list. -/
def headRun (w : String) : List String → Nat
  | [] => 0
  | x :: xs => if x = w then headRun w xs + 1 else 0

/-- Longest run of immediately consecutive identical tokens. -/
def maxRun : List String → Nat
  | [] => 0
  | w :: ws => max (headRun w ws + 1) (maxRun ws)

/-- The token list contains `k` immediately consecutive copies of some token. -/
def hasRun (ws : List String) (k : Nat) : Prop :=
  ∃ pre w post, ws = pre ++ List.replicate k w ++ post

/-- Helper for relating the Python fold to `maxRun`: the value the
fold reaches from state `(·, current, last_word)` over the rest. -/
def chainRun (current : Nat) (last_word : String) : List String → Nat
  | [] => current
  | word :: rest =>
    if word = last_word then chainRun (current + 1) last_word rest
    else max current (chainRun 1 word rest)

end Transcriber

namespace Translator

/-- Python list-char `strip()` of whitespace at both ends. -/
def pyStripL (l : List Char) : List Char :=
  ((l.dropWhile Char.isWhitespace).reverse.dropWhile Char.isWhitespace).reverse

/-- Python `str.strip()`. -/
def pyStrip (s : String) : String :=
  String.mk (pyStripL s.data)

/-- Does the pattern occur at the head of the character list? -/
def leadMatch : List Char → List Char → Bool
  | [], _ => true
  | _ :: _, [] => false
  | p :: ps, c :: cs => p = c && leadMatch ps cs

/-- The characters of the opening tag matched by `_strip_thinking`. -/
def openTag : List Char := ['<', 't', 'h', 'i', 'n', 'k', '>']

/-- The characters of the closing tag matched by `_strip_thinking`. -/
def closeTag : List Char := ['<', '/', 't', 'h', 'i', 'n', 'k', '>']

/-- Scan forward for the first occurrence of the closing tag, returning
the suffix after it (the non-greedy `.*?` of the regex stops at the
first close), or `none` when the tag never closes. -/
def dropClose : List Char → Option (List Char)
  | [] => none
  | c :: cs =>
    if leadMatch closeTag (c :: cs) then some ((c :: cs).drop closeTag.length)
    else dropClose cs

/-- Fueled scan implementing `re.sub(r'<think>.*?</think>', '', text,
flags=re.DOTALL)`: each match (an opening tag followed, possibly after
any characters including newlines, by the nearest closing tag) is
deleted and scanning resumes after it; an opening tag with no closing
tag matches nothing and is kept. -/
def stripThinkAux : Nat → List Char → List Char
  | 0, cs => cs
  | fuel + 1, cs =>
    match cs with
    | [] => []
    | c :: rest =>
      if leadMatch openTag (c :: rest) then
        match dropClose ((c :: rest).drop openTag.length) with
        | some rest2 => stripThinkAux fuel rest2
        | none => c :: rest
      else c :: stripThinkAux fuel rest

/-- `Translator._strip_thinking` (src/translator.py:45-49): remove the
think-tag spans, then `strip()` the result. -/
def strip_thinking (s : String) : String :=
  pyStrip (String.mk (stripThinkAux s.data.length s.data))

/-- The shared context slot of src/translator.py:42-43. -/
structure Context where
  previous_text : String
  previous_translation : String
deriving DecidableEq

/-- Outcome of the engine call issued inside the `try` block of
`Translator.translate` (src/translator.py:81-106): either the call
returns a message content, or it raises an `OpenAIError`, or some
other exception is raised before the context is updated. -/
inductive Outcome where
  | ok (content : String)
  | openAIError (msg : String)
  | unexpected (msg : String)
deriving DecidableEq

/-- `Translator.translate` (src/translator.py:51-106), with the
mutable fields made explicit state.  Returns the translation string
and the new context.  The Python guard `if not text or not
text.strip(): return ""` short-circuits before any engine call, so
the outcome parameter is ignored on that path.  On success the raw
content is stripped, think-tags removed, and the context overwritten
with `(text, result)`; on `OpenAIError` the diagnostic string is
returned; on any other exception the input text is echoed; the two
exception branches leave the context untouched. -/
def translate (ctx : Context) (text : String) (outcome : Outcome) :
    String × Context :=
  if text = "" ∨ pyStrip text = "" then ("", ctx)
  else
    match outcome with
    | .ok content =>
      let raw_result := pyStrip content
      let result := strip_thinking raw_result
      (result, ⟨text, result⟩)
    | .openAIError e => ("[Error: " ++ e ++ "]", ctx)
    | .unexpected _ => (text, ctx)

end Translator

namespace Pipeline

/-- Which of the four `self.signals.update_text.emit` call sites of
`Pipeline.processing_loop` (src/main.py) produced an event.  This is
ghost information: the signal payload itself is only the triple.
`interim` is the transcription-only emit at line 145, `loopFull` the
in-loop translation emit at line 169, `drainT` the drain-phase
transcription emit at line 184, `drainTr` the drain-phase translation
emit at line 193. -/
inductive Site where
  | interim
  | loopFull
  | drainT
  | drainTr
deriving DecidableEq, Repr

/-- Payload of the `update_text` signal: `(chunk_id, original, translated)`. -/
structure UpdateEvent where
  segment_id : Nat
  original : String
  translated : String
deriving DecidableEq, Repr

/-- An emitted event with its ghost emission-site tag. -/
abbrev Ev := Site × UpdateEvent

/-- Environment resolving the nondeterminism of the two thread pools
for one run.  For the chunk with id `c`:
* `transcript c` is the value of the transcription future —
  `some text` when `_transcribe_chunk` returns `text`, `none` when it
  raises;
* `tDone c` is the loop iteration from which `fut.done()` is true;
* `translated c` is the translation the pool worker produces
  (`self.translator.translate(text)` inside `_translate_and_log`);
* `trDone c` is the iteration from which the translation future is done;
* `drainResolves c` says whether a still-pending transcription future
  resolves within the 10s drain timeout;
* `syncTranslated c` is the result of the synchronous
  `self.translator.translate(text)` call in the drain phase;
* `trDrainResolves c` says whether a still-pending translation future
  resolves within the 5s drain timeout. -/
structure Env where
  transcript : Nat → Option String
  tDone : Nat → Nat
  translated : Nat → String
  trDone : Nat → Nat
  drainResolves : Nat → Bool
  syncTranslated : Nat → String
  trDrainResolves : Nat → Bool

/-- The text a resolved transcription future carries (empty when the
future raised; only used where `transcript c = some text`). -/
def textOf (env : Env) (c : Nat) : String :=
  (env.transcript c).getD ""

/-- The transcription future of chunk `c` is observed done at
iteration `t` and its result is accepted: no exception and a
non-empty text (the `fut.done()`, `fut.result()` and `if text:`
conditions of src/main.py:140-143 combined). -/
def observedAccept (env : Env) (t c : Nat) : Bool :=
  decide (env.tDone c ≤ t) &&
    (match env.transcript c with
     | some text => ! decide (text = "")
     | none => false)

/-- The poll over `pending_transcriptions` (src/main.py:137-157) at
iteration `t`: done futures are removed; a done future whose result is
a non-empty text emits a partial event and submits a translation
`(cid, text)`; a done future with empty text or a raised exception is
dropped silently; not-done futures are kept in order.  Returns
`(still_pending, translation_submissions, emitted_events)`. -/
def pollTranscriptions (env : Env) (t : Nat) :
    List Nat → List Nat × List (Nat × String) × List Ev
  | [] => ([], [], [])
  | cid :: rest =>
    let r := pollTranscriptions env t rest
    if env.tDone cid ≤ t then
      match env.transcript cid with
      | some text =>
        if text = "" then (r.1, r.2.1, r.2.2)
        else (r.1, (cid, text) :: r.2.1, (Site.interim, ⟨cid, text, ""⟩) :: r.2.2)
      | none => (r.1, r.2.1, r.2.2)
    else (cid :: r.1, r.2.1, r.2.2)

/-- The poll over `pending_translations` (src/main.py:159-175) at
iteration `t`: a done future yields the tuple `(text, translated)`,
which is always truthy, so a full event is emitted; not-done futures
are kept in order. -/
def pollTranslations (env : Env) (t : Nat) :
    List (Nat × String) → List (Nat × String) × List Ev
  | [] => ([], [])
  | (cid, text) :: rest =>
    let r := pollTranslations env t rest
    if env.trDone cid ≤ t then
      (r.1, (Site.loopFull, ⟨cid, text, env.translated cid⟩) :: r.2)
    else ((cid, text) :: r.1, r.2)

/-- Orchestrator bookkeeping state.  `translation_submissions` is a
ghost log of every `(cid, text)` ever submitted to the translation
pool, and `assigned` a ghost log of every `chunk_id` value assigned;
the remaining fields mirror the loop variables of
`processing_loop`. -/
structure PState where
  chunk_id : Nat
  pending_transcriptions : List Nat
  pending_translations : List (Nat × String)
  events : List Ev
  translation_submissions : List (Nat × String)
  assigned : List Nat
deriving DecidableEq

/-- The backlog right after the submission of the next chunk
(src/main.py:127): the tracked list with the new entry appended. -/
def submittedBacklogOf (s : PState) : List Nat :=
  s.pending_transcriptions ++ [s.chunk_id + 1]

/-- The backlog right after the shedding check of src/main.py:131-135:
if more than 10 entries are tracked, keep only the last 5
(`pending_transcriptions[-5:]`). -/
def sheddedBacklogOf (s : PState) : List Nat :=
  let p1 := submittedBacklogOf s
  if 10 < p1.length then p1.drop (p1.length - 5) else p1

/-- The entries discarded by the shedding check of src/main.py:131-135. -/
def sheddedDroppedOf (s : PState) : List Nat :=
  let p1 := submittedBacklogOf s
  if 10 < p1.length then p1.take (p1.length - 5) else []

/-- One iteration of the `RUNNING` loop (src/main.py:112-175) on
arrival of an audio chunk: increment `chunk_id`, submit the
transcription, apply the shedding policy, poll the transcription
backlog, append the new translation submissions, poll the translation
backlog, and append the emitted events in emission order. -/
def stepRun (env : Env) (s : PState) : PState :=
  let cid := s.chunk_id + 1
  let p2 := sheddedBacklogOf s
  let polled := pollTranscriptions env cid p2
  let q1 := s.pending_translations ++ polled.2.1
  let polledTr := pollTranslations env cid q1
  { chunk_id := cid
    pending_transcriptions := polled.1
    pending_translations := polledTr.1
    events := s.events ++ polled.2.2 ++ polledTr.2
    translation_submissions := s.translation_submissions ++ polled.2.1
    assigned := s.assigned ++ [cid] }

/-- Initial loop state (src/main.py:107-110). -/
def initState : PState :=
  ⟨0, [], [], [], [], []⟩

/-- State after consuming the first `n` audio chunks. -/
def runAux (env : Env) : Nat → PState
  | 0 => initState
  | n + 1 => stepRun env (runAux env n)

/-- The first drain phase (src/main.py:178-186): block on each still
pending transcription future for up to 10s; on a result with non-empty
text whose `strip()` is non-empty, translate synchronously and emit a
full event; timeouts and raised exceptions are swallowed. -/
def drainTranscriptions (env : Env) : List Nat → List Ev
  | [] => []
  | cid :: rest =>
    (if env.drainResolves cid then
      match env.transcript cid with
      | some text =>
        if text = "" ∨ Translator.pyStrip text = "" then []
        else [(Site.drainT, ⟨cid, text, env.syncTranslated cid⟩)]
      | none => []
    else []) ++ drainTranscriptions env rest

/-- The second drain phase (src/main.py:188-195): block on each still
pending translation future for up to 5s; a resolved tuple is always
truthy and is emitted as a full event; timeouts are swallowed. -/
def drainTranslations (env : Env) : List (Nat × String) → List Ev
  | [] => []
  | (cid, text) :: rest =>
    (if env.trDrainResolves cid then
      [(Site.drainTr, ⟨cid, text, env.translated cid⟩)]
    else []) ++ drainTranslations env rest

/-- The full sequence of events emitted by one run of
`processing_loop` over `n` audio chunks: the loop events followed by
the two drain phases. -/
def runPipeline (env : Env) (n : Nat) : List Ev :=
  let s := runAux env n
  s.events ++ drainTranscriptions env s.pending_transcriptions
    ++ drainTranslations env s.pending_translations

/-! Derived notions used to state the claims. -/

/-- The event is the partial (transcription-only) update for segment `cid`. -/
def isInterimFor (cid : Nat) (e : Ev) : Prop :=
  e.1 = Site.interim ∧ e.2.segment_id = cid

/-- The event is a full (translation-carrying) update for segment `cid`. -/
def isFullFor (cid : Nat) (e : Ev) : Prop :=
  e.1 ≠ Site.interim ∧ e.2.segment_id = cid

instance (cid : Nat) (e : Ev) : Decidable (isInterimFor cid e) :=
  inferInstanceAs (Decidable (_ ∧ _))

instance (cid : Nat) (e : Ev) : Decidable (isFullFor cid e) :=
  inferInstanceAs (Decidable (_ ∧ _))

/-- The segment ids of the partial events of a list, in order. -/
def interimIds (l : List Ev) : List Nat :=
  (l.filter fun e => decide (e.1 = Site.interim)).map fun e => e.2.segment_id

/-- Number of partial events for segment `cid` in a list. -/
def interimCount (l : List Ev) (cid : Nat) : Nat :=
  (l.filter fun e => decide (isInterimFor cid e)).length

/-- No partial event for `cid` appears anywhere after a full event for
`cid`: the temporal ordering part of the partial-before-full claim. -/
def noLateInterim (cid : Nat) : List Ev → Prop
  | [] => True
  | e :: rest =>
    noLateInterim cid rest ∧ (isFullFor cid e → ∀ e2 ∈ rest, ¬ isInterimFor cid e2)

/-- The backlog right after the submission of chunk `t + 1`
(src/main.py:127), before the shedding check. -/
def submittedBacklog (env : Env) (t : Nat) : List Nat :=
  submittedBacklogOf (runAux env t)

/-- The backlog right after the shedding check of src/main.py:131-135,
during the iteration that consumes chunk `t + 1`. -/
def shedBacklog (env : Env) (t : Nat) : List Nat :=
  sheddedBacklogOf (runAux env t)

/-- The entries discarded by the shedding check during the iteration
that consumes chunk `t + 1`. -/
def shedDropped (env : Env) (t : Nat) : List Nat :=
  sheddedDroppedOf (runAux env t)

/-- The cids accepted by the transcription poll of the iteration that
takes state `s` to `stepRun env s`. -/
def acceptedNow (env : Env) (s : PState) : List Nat :=
  (sheddedBacklogOf s).filter (observedAccept env (s.chunk_id + 1))

/-- The `(cid, text)` pairs submitted to the translation pool during
that iteration. -/
def newSubs (env : Env) (s : PState) : List (Nat × String) :=
  (acceptedNow env s).map fun c => (c, textOf env c)

/-- Segment `cid` is observed completed with non-empty text by the
transcription poll of some `RUNNING`-phase iteration of an `n`-chunk
run: during the iteration consuming chunk `t + 1` (for some `t < n`)
it is in the polled backlog with its future done and its text
accepted. -/
def acceptedInLoop (env : Env) (n cid : Nat) : Prop :=
  ∃ t, t < n ∧ cid ∈ acceptedNow env (runAux env t)

/-- Segment `cid` leaves no trace in state `s`: it is tracked in
neither backlog, no event has been emitted for it, and its id is not
in the future of the `chunk_id` counter.  Once a segment is dead its
future may still resolve, but the orchestrator never consults it
again. -/
def DeadFor (cid : Nat) (s : PState) : Prop :=
  cid ∉ s.pending_transcriptions
  ∧ (∀ p ∈ s.pending_translations, p.1 ≠ cid)
  ∧ (∀ e ∈ s.events, e.2.segment_id ≠ cid)
  ∧ cid ≤ s.chunk_id

/-- Invariant of the `RUNNING` loop after `n` iterations. -/
structure Invariant (n : Nat) (s : PState) : Prop where
  chunk_eq : s.chunk_id = n
  pt_le : ∀ c ∈ s.pending_transcriptions, c ≤ n
  pt_sorted : s.pending_transcriptions.Pairwise (· < ·)
  ptr_le : ∀ p ∈ s.pending_translations, p.1 ≤ n
  ev_le : ∀ e ∈ s.events, e.2.segment_id ≤ n
  pt_fresh : ∀ c ∈ s.pending_transcriptions,
    (∀ p ∈ s.pending_translations, p.1 ≠ c) ∧ (∀ e ∈ s.events, e.2.segment_id ≠ c)
  interim_nodup : (interimIds s.events).Nodup
  ptr_has_interim : ∀ p ∈ s.pending_translations, p.1 ∈ interimIds s.events
  full_has_interim : ∀ e ∈ s.events, e.1 = Site.loopFull →
    e.2.segment_id ∈ interimIds s.events
  no_late : ∀ cid, noLateInterim cid s.events
  sites_ok : ∀ e ∈ s.events, e.1 = Site.interim ∨ e.1 = Site.loopFull

/-! Concrete environments used for counterexamples and witnesses. -/

/-- One chunk whose transcription resolves only during the drain
phase, with non-empty text; the synchronous drain translation yields
a non-empty translation. -/
def envDrainOnly : Env :=
  { transcript := fun _ => some "hello"
    tDone := fun _ => 100
    translated := fun _ => ""
    trDone := fun _ => 100
    drainResolves := fun _ => true
    syncTranslated := fun _ => "hola"
    trDrainResolves := fun _ => false }

/-- Three real segments whose transcriptions are observed completed in
reverse order (segment 3 at iteration 3, segment 2 at iteration 4,
segment 1 at iteration 5); chunks 4 and 5 transcribe to silence. -/
def envReverse : Env :=
  { transcript := fun c =>
      if c = 1 then some "alpha" else if c = 2 then some "beta"
      else if c = 3 then some "gamma" else some ""
    tDone := fun c => if c = 1 then 5 else if c = 2 then 4 else if c = 3 then 3 else 0
    translated := fun _ => "t"
    trDone := fun _ => 100
    drainResolves := fun _ => false
    syncTranslated := fun _ => ""
    trDrainResolves := fun _ => false }

/-- A stalled run: no future ever completes, so the backlog grows
until the shedding policy fires. -/
def envStalled : Env :=
  { transcript := fun _ => none
    tDone := fun _ => 1000
    translated := fun _ => ""
    trDone := fun _ => 1000
    drainResolves := fun _ => false
    syncTranslated := fun _ => ""
    trDrainResolves := fun _ => false }

/-- Every transcription resolves immediately to the empty string. -/
def envSilent : Env :=
  { transcript := fun _ => some ""
    tDone := fun _ => 0
    translated := fun _ => ""
    trDone := fun _ => 0
    drainResolves := fun _ => true
    syncTranslated := fun _ => ""
    trDrainResolves := fun _ => true }

/-- Segment 1 is transcribed at iteration 1 and its translation
completes at iteration 2; the other chunks transcribe to silence. -/
def envOneFull : Env :=
  { transcript := fun c => if c = 1 then some "hi" else some ""
    tDone := fun c => if c = 1 then 1 else 0
    translated := fun _ => "yo"
    trDone := fun _ => 2
    drainResolves := fun _ => false
    syncTranslated := fun _ => ""
    trDrainResolves := fun _ => false }

end Pipeline

namespace Transcriber

/-- Every token produced by the splitter is a non-empty word. -/
theorem pyWordsAux_ne_nil :
    ∀ (l : List Char) (cur : List Char), ∀ w ∈ pyWordsAux cur l, w ≠ [] := by
  intro l
  induction l with
  | nil =>
    intro cur w hw
    by_cases hc : cur = [] <;> simp [pyWordsAux, hc] at hw
    subst hw
    simpa using hc
  | cons c cs ih =>
    intro cur w hw
    by_cases hws : c.isWhitespace
    · by_cases hc : cur = []
      · rw [pyWordsAux, if_pos hws, if_pos hc] at hw
        exact ih [] w hw
      · rw [pyWordsAux, if_pos hws, if_neg hc] at hw
        rcases List.mem_cons.mp hw with h | h
        · subst h; simpa using hc
        · exact ih [] w h
    · rw [pyWordsAux, if_neg hws] at hw
      exact ih (c :: cur) w hw

/-- Tokens of `pySplit` are non-empty strings. -/
theorem pySplit_ne_empty {s : String} : ∀ w ∈ pySplit s, w ≠ "" := by
  intro w hw
  obtain ⟨wl, hmem, rfl⟩ := List.mem_map.mp hw
  intro hcon
  have : wl = [] := by
    have := congrArg String.data hcon
    simpa using this
  exact pyWordsAux_ne_nil _ _ wl hmem this

theorem pySplit_empty : pySplit "" = [] := rfl

/-- The Python fold equals `max` of the accumulator with the chain value. -/
theorem repeatsGo_eq :
    ∀ (l : List String) (m c : Nat) (w : String),
      repeatsGo m c w l = max m (chainRun c w l) := by
  intro l
  induction l with
  | nil => intro m c w; rfl
  | cons word rest ih =>
    intro m c w
    by_cases h : word = w
    · rw [repeatsGo, if_pos h, chainRun, if_pos h, ih]
    · rw [repeatsGo, if_neg h, chainRun, if_neg h, ih]
      omega

/-- The chain value in terms of the leading run and the tail maximum. -/
theorem chainRun_eq :
    ∀ (l : List String) (c : Nat) (w : String),
      chainRun c w l = max (c + headRun w l) (maxRun l) := by
  intro l
  induction l with
  | nil => intro c w; simp [chainRun, headRun, maxRun]
  | cons word rest ih =>
    intro c w
    by_cases h : word = w
    · subst h
      rw [chainRun, if_pos rfl, ih, headRun, if_pos rfl, maxRun]
      omega
    · rw [chainRun, if_neg h, ih, headRun, if_neg h, maxRun]
      omega

/-- On a non-empty token list with non-empty head the Python loop
computes exactly the longest run of consecutive identical tokens. -/
theorem maxRepeats_eq_maxRun {w : String} (hw : w ≠ "") (l : List String) :
    maxRepeats (w :: l) = maxRun (w :: l) := by
  rw [maxRepeats, repeatsGo, if_neg hw, repeatsGo_eq, chainRun_eq, maxRun]
  omega

theorem le_maxRun_append (l1 l2 : List String) : maxRun l2 ≤ maxRun (l1 ++ l2) := by
  induction l1 with
  | nil => simp
  | cons x xs ih =>
    rw [List.cons_append, maxRun]
    omega

theorem headRun_replicate (w : String) (j : Nat) (post : List String) :
    j ≤ headRun w (List.replicate j w ++ post) := by
  induction j with
  | zero => simp
  | succ j ih =>
    rw [List.replicate_succ, List.cons_append, headRun, if_pos rfl]
    omega

/-- A contained run bounds the longest run from below. -/
theorem hasRun_le_maxRun {ws : List String} {k : Nat} (hk : 1 ≤ k)
    (h : hasRun ws k) : k ≤ maxRun ws := by
  obtain ⟨pre, w, post, rfl⟩ := h
  have h2 : k ≤ maxRun (List.replicate k w ++ post) := by
    obtain ⟨j, rfl⟩ : ∃ j, k = j + 1 := ⟨k - 1, by omega⟩
    rw [List.replicate_succ, List.cons_append, maxRun]
    have := headRun_replicate w j post
    omega
  rw [List.append_assoc]
  exact Nat.le_trans h2 (le_maxRun_append pre _)

/-- The leading run of `w` is literally a replicate-block. -/
theorem headRun_decomp (w : String) :
    ∀ l : List String, ∃ rest, l = List.replicate (headRun w l) w ++ rest := by
  intro l
  induction l with
  | nil => exact ⟨[], rfl⟩
  | cons x xs ih =>
    by_cases h : x = w
    · subst h
      obtain ⟨rest, hrest⟩ := ih
      refine ⟨rest, ?_⟩
      rw [headRun, if_pos rfl, List.replicate_succ, List.cons_append]
      exact congrArg _ hrest
    · exact ⟨x :: xs, by rw [headRun, if_neg h]; simp⟩

/-- The longest run is witnessed by an actual contained run. -/
theorem maxRun_hasRun : ∀ l : List String, 1 ≤ maxRun l → hasRun l (maxRun l) := by
  intro l
  induction l with
  | nil => intro h; simp [maxRun] at h
  | cons w ws ih =>
    intro _
    rcases max_choice (headRun w ws + 1) (maxRun ws) with hc | hc
    · rw [maxRun, hc]
      obtain ⟨rest, hrest⟩ := headRun_decomp w ws
      exact ⟨[], w, rest, by
        rw [List.nil_append, List.replicate_succ, List.cons_append, ← hrest]⟩
    · rw [maxRun, hc]
      have h1 : 1 ≤ maxRun ws := by
        have h2 := Nat.le_max_left (headRun w ws + 1) (maxRun ws)
        rw [hc] at h2
        omega
      obtain ⟨pre, x, post, hx⟩ := ih h1
      exact ⟨w :: pre, x, post, by rw [List.cons_append, List.cons_append, ← hx]⟩

/-- Branch-explicit form of the classifier. -/
theorem is_hallucination_spec (text : String) :
    is_hallucination text =
      if text = "" then false
      else if pySplit text = [] then false
      else if 4 < maxRepeats (pySplit text) then true
      else if 10 < (pySplit text).length then
        if 5 * (pySplit text).dedup.length < 2 * (pySplit text).length then true
        else false
      else false := rfl

end Transcriber

namespace Transcriber

/-- Claim C2: any input whose whitespace tokenization contains a run of
`k > 4` immediately consecutive identical tokens is rejected by the
hallucination classifier, and `transcribe` therefore maps that engine
text to the empty string. -/
theorem hallucination_rejects_runs (text : String) (k : Nat) (hk : 4 < k)
    (h : hasRun (pySplit text) k) :
    is_hallucination text = true ∧ transcribe text = "" := by
  have hk1 : 1 ≤ k := by omega
  have hlen : 5 ≤ (pySplit text).length := by
    obtain ⟨pre, w, post, hws⟩ := h
    rw [hws]
    simp
    omega
  have hne : pySplit text ≠ [] := by
    intro h0
    rw [h0] at hlen
    simp at hlen
  have htext : text ≠ "" := by
    intro h0
    rw [h0, pySplit_empty] at hne
    exact hne rfl
  have hmax : 4 < maxRepeats (pySplit text) := by
    have hrun := hasRun_le_maxRun hk1 h
    rcases hlist : pySplit text with _ | ⟨w0, l⟩
    · exact absurd hlist hne
    · have hw0 : w0 ≠ "" := pySplit_ne_empty w0 (by rw [hlist]; exact List.mem_cons_self w0 l)
      rw [hlist] at hrun
      rw [maxRepeats_eq_maxRun hw0 l]
      omega
  have hh : is_hallucination text = true := by
    rw [is_hallucination_spec, if_neg htext, if_neg hne, if_pos hmax]
  exact ⟨hh, by rw [transcribe, hh]; rfl⟩

/-- Witness for C2 at the concrete transcript "go go go go go". -/
theorem hallucination_rejects_runs_witness :
    is_hallucination "go go go go go" = true ∧ transcribe "go go go go go" = "" :=
  hallucination_rejects_runs "go go go go go" 5 (by omega) ⟨[], "go", [], by decide⟩

/-- Claim C3: on tokenizations longer than 10 tokens the classifier
rejects exactly when the unique-token ratio is below 0.4, provided no
run longer than 4 is present; with a low ratio it rejects
unconditionally. -/
theorem hallucination_density (text : String) :
    (10 < (pySplit text).length →
      5 * (pySplit text).dedup.length < 2 * (pySplit text).length →
      is_hallucination text = true)
  ∧ (10 < (pySplit text).length →
      2 * (pySplit text).length ≤ 5 * (pySplit text).dedup.length →
      (∀ k, 4 < k → ¬ hasRun (pySplit text) k) →
      is_hallucination text = false) := by
  constructor
  · intro h10 hratio
    have hne : pySplit text ≠ [] := by
      intro h0
      rw [h0] at h10
      simp at h10
    have htext : text ≠ "" := by
      intro h0
      rw [h0, pySplit_empty] at hne
      exact hne rfl
    rw [is_hallucination_spec, if_neg htext, if_neg hne]
    by_cases hmr : 4 < maxRepeats (pySplit text)
    · rw [if_pos hmr]
    · rw [if_neg hmr, if_pos h10, if_pos hratio]
  · intro h10 hratio hnorun
    have hne : pySplit text ≠ [] := by
      intro h0
      rw [h0] at h10
      simp at h10
    have htext : text ≠ "" := by
      intro h0
      rw [h0, pySplit_empty] at hne
      exact hne rfl
    have hmr4 : maxRun (pySplit text) ≤ 4 := by
      by_contra hgt
      push_neg at hgt
      exact hnorun _ hgt (maxRun_hasRun _ (by omega))
    have hmr : ¬ 4 < maxRepeats (pySplit text) := by
      rcases hlist : pySplit text with _ | ⟨w0, l⟩
      · exact absurd hlist hne
      · have hw0 : w0 ≠ "" := pySplit_ne_empty w0 (by rw [hlist]; exact List.mem_cons_self w0 l)
        rw [hlist] at hmr4
        rw [maxRepeats_eq_maxRun hw0 l]
        omega
    have hrat : ¬ 5 * (pySplit text).dedup.length < 2 * (pySplit text).length := by omega
    rw [is_hallucination_spec, if_neg htext, if_neg hne, if_neg hmr, if_pos h10, if_neg hrat]

/-- Witness for C3: a 12-token alternation with ratio 1/6 is rejected;
an 11-token all-distinct transcript with no repetition is accepted. -/
theorem hallucination_density_witness :
    is_hallucination "a b a b a b a b a b a b" = true ∧
    is_hallucination "c1 c2 c3 c4 c5 c6 c7 c8 c9 c10 c11" = false := by
  constructor
  · exact (hallucination_density "a b a b a b a b a b a b").1 (by decide) (by decide)
  · refine (hallucination_density "c1 c2 c3 c4 c5 c6 c7 c8 c9 c10 c11").2
      (by decide) (by decide) ?_
    intro k hk hrun
    have hle := hasRun_le_maxRun (by omega) hrun
    have hmr : maxRun (pySplit "c1 c2 c3 c4 c5 c6 c7 c8 c9 c10 c11") = 1 := by decide
    omega

end Transcriber

namespace Translator

/-- Claim C7: when an engine call actually happens (the input is not
blank, so the early-return guard does not fire), `translate` recovers
from both failure modes without raising: an `OpenAIError` is turned
into the diagnostic string `[Error: ...]`, and any other exception
makes the call return the input text unchanged. -/
theorem translate_error_recovery (ctx : Context) (text e m : String)
    (h : pyStrip text ≠ "") :
    (translate ctx text (.openAIError e)).1 = "[Error: " ++ e ++ "]"
  ∧ (translate ctx text (.unexpected m)).1 = text := by
  have hg : ¬ (text = "" ∨ pyStrip text = "") := by
    rintro (rfl | hs)
    · exact h rfl
    · exact h hs
  constructor
  · rw [translate.eq_def, if_neg hg]
  · rw [translate.eq_def, if_neg hg]

/-- Witness for C7 at a concrete non-blank input. -/
theorem translate_error_recovery_witness :
    (translate ⟨"p", "q"⟩ "hi" (.openAIError "boom")).1 = "[Error: boom]"
  ∧ (translate ⟨"p", "q"⟩ "hi" (.unexpected "x")).1 = "hi" :=
  translate_error_recovery ⟨"p", "q"⟩ "hi" "boom" "x" (by decide)

/-- Claim C8: for a non-blank input, a successful engine call
overwrites the shared context with the pair (input text, produced
translation), while either failing branch leaves the context exactly
as it was. -/
theorem translate_context_update (ctx : Context) (text content e m : String)
    (h : pyStrip text ≠ "") :
    (translate ctx text (.ok content)).2 =
      ⟨text, (translate ctx text (.ok content)).1⟩
  ∧ (translate ctx text (.openAIError e)).2 = ctx
  ∧ (translate ctx text (.unexpected m)).2 = ctx := by
  have hg : ¬ (text = "" ∨ pyStrip text = "") := by
    rintro (rfl | hs)
    · exact h rfl
    · exact h hs
  refine ⟨?_, ?_, ?_⟩ <;> rw [translate.eq_def, if_neg hg]

/-- Witness for C8: success overwrites the slot, failures leave it. -/
theorem translate_context_update_witness :
    (translate ⟨"p", "q"⟩ "hi" (.ok "salut")).2 = ⟨"hi", "salut"⟩
  ∧ (translate ⟨"p", "q"⟩ "hi" (.openAIError "boom")).2 = ⟨"p", "q"⟩
  ∧ (translate ⟨"p", "q"⟩ "hi" (.unexpected "x")).2 = ⟨"p", "q"⟩ := by
  have H := translate_context_update ⟨"p", "q"⟩ "hi" "salut" "boom" "x" (by decide)
  refine ⟨?_, H.2.1, H.2.2⟩
  rw [H.1]
  decide

/-- Claim C10: a blank input (empty or whitespace-only) makes
`translate` return the empty string with the context untouched,
independently of the engine outcome — i.e. no engine call is made. -/
theorem translate_blank_input (ctx : Context) (text : String) (outcome : Outcome)
    (h : text = "" ∨ pyStrip text = "") :
    translate ctx text outcome = ("", ctx) := by
  rw [translate.eq_def, if_pos h]

/-- Witness for C10 at the whitespace-only input. -/
theorem translate_blank_input_witness :
    translate ⟨"p", "q"⟩ "  " (.ok "ignored") = ("", ⟨"p", "q"⟩) :=
  translate_blank_input ⟨"p", "q"⟩ "  " (.ok "ignored") (Or.inr (by decide))

end Translator

namespace Pipeline

/-- The transcription poll is a triple of filters over the polled
backlog: the kept entries are the not-yet-done ones, and both the
translation submissions and the partial events range over the
accepted entries, in backlog order. -/
theorem pollTranscriptions_spec (env : Env) (t : Nat) :
    ∀ l : List Nat,
      pollTranscriptions env t l =
        (l.filter (fun c => ! decide (env.tDone c ≤ t)),
         (l.filter (observedAccept env t)).map (fun c => (c, textOf env c)),
         (l.filter (observedAccept env t)).map
           (fun c => (Site.interim, ⟨c, textOf env c, ""⟩))) := by
  intro l
  induction l with
  | nil => rfl
  | cons cid rest ih =>
    rw [pollTranscriptions, ih]
    by_cases hd : env.tDone cid ≤ t
    · cases htr : env.transcript cid with
      | some text =>
        by_cases hte : text = "" <;>
          simp [observedAccept, hd, htr, hte, textOf]
      | none => simp [observedAccept, hd, htr]
    · simp [observedAccept, hd]

/-- The translation poll keeps the not-yet-done entries and emits a
full event for each done one, in backlog order. -/
theorem pollTranslations_spec (env : Env) (t : Nat) :
    ∀ l : List (Nat × String),
      pollTranslations env t l =
        (l.filter (fun p => ! decide (env.trDone p.1 ≤ t)),
         (l.filter (fun p => decide (env.trDone p.1 ≤ t))).map
           (fun p => (Site.loopFull, ⟨p.1, p.2, env.translated p.1⟩))) := by
  intro l
  induction l with
  | nil => rfl
  | cons p rest ih =>
    obtain ⟨cid, text⟩ := p
    rw [pollTranslations, ih]
    by_cases hd : env.trDone cid ≤ t <;> simp [hd]

/-- `stepRun` written out through the poll characterizations. -/
theorem stepRun_eq (env : Env) (s : PState) :
    stepRun env s =
      { chunk_id := s.chunk_id + 1
        pending_transcriptions :=
          (sheddedBacklogOf s).filter (fun c => ! decide (env.tDone c ≤ s.chunk_id + 1))
        pending_translations :=
          ((s.pending_translations ++ newSubs env s).filter
            (fun p => ! decide (env.trDone p.1 ≤ s.chunk_id + 1)))
        events := s.events
          ++ (acceptedNow env s).map (fun c => (Site.interim, ⟨c, textOf env c, ""⟩))
          ++ ((s.pending_translations ++ newSubs env s).filter
                (fun p => decide (env.trDone p.1 ≤ s.chunk_id + 1))).map
              (fun p => (Site.loopFull, ⟨p.1, p.2, env.translated p.1⟩))
        translation_submissions := s.translation_submissions ++ newSubs env s
        assigned := s.assigned ++ [s.chunk_id + 1] } := by
  rw [stepRun]
  rw [pollTranscriptions_spec, pollTranslations_spec]
  rfl

theorem runAux_succ (env : Env) (n : Nat) :
    runAux env (n + 1) = stepRun env (runAux env n) := rfl

theorem chunkId_runAux (env : Env) (n : Nat) : (runAux env n).chunk_id = n := by
  induction n with
  | zero => rfl
  | succ n ih => rw [runAux_succ, stepRun_eq, ih]

/-! Facts about `interimIds`, `interimCount` and `noLateInterim`. -/

theorem interimIds_append (l1 l2 : List Ev) :
    interimIds (l1 ++ l2) = interimIds l1 ++ interimIds l2 := by
  simp [interimIds]

theorem interimIds_interims (A : List Nat) (f : Nat → String) :
    interimIds (A.map fun c => ((Site.interim, ⟨c, f c, ""⟩) : Ev)) = A := by
  induction A with
  | nil => rfl
  | cons a A ih => simp [interimIds] at ih ⊢; exact ih

theorem interimIds_fulls (l : List (Nat × String)) (g : Nat → String) :
    interimIds (l.map fun p => ((Site.loopFull, ⟨p.1, p.2, g p.1⟩) : Ev)) = [] := by
  induction l with
  | nil => rfl
  | cons p l ih => simp [interimIds] at ih ⊢; exact ih

theorem mem_of_mem_interimIds {x : Nat} {l : List Ev} (h : x ∈ interimIds l) :
    ∃ e ∈ l, e.1 = Site.interim ∧ e.2.segment_id = x := by
  obtain ⟨e, he, hx⟩ := List.mem_map.mp h
  have := List.mem_filter.mp he
  exact ⟨e, this.1, by simpa using this.2, hx⟩

theorem interimCount_append (l1 l2 : List Ev) (cid : Nat) :
    interimCount (l1 ++ l2) cid = interimCount l1 cid + interimCount l2 cid := by
  simp [interimCount]

theorem interimCount_eq_count (cid : Nat) :
    ∀ l : List Ev, interimCount l cid = (interimIds l).count cid := by
  intro l
  induction l with
  | nil => rfl
  | cons e rest ih =>
    by_cases hs : e.1 = Site.interim
    · by_cases hid : e.2.segment_id = cid
      · simp [interimCount, interimIds, isInterimFor, hs, hid, List.count_cons] at ih ⊢
        omega
      · simp [interimCount, interimIds, isInterimFor, hs, hid, List.count_cons] at ih ⊢
        exact ih
    · simp [interimCount, interimIds, isInterimFor, hs] at ih ⊢
      exact ih

theorem interimCount_of_no_interim {l : List Ev} (cid : Nat)
    (h : ∀ e ∈ l, e.1 ≠ Site.interim) : interimCount l cid = 0 := by
  have : l.filter (fun e => decide (isInterimFor cid e)) = [] := by
    refine List.filter_eq_nil_iff.mpr ?_
    intro e he
    simp [isInterimFor]
    intro hs
    exact absurd hs (h e he)
  rw [interimCount, this]
  rfl

theorem noLateInterim_append (cid : Nat) :
    ∀ l1 l2 : List Ev,
      noLateInterim cid (l1 ++ l2) ↔
        noLateInterim cid l1 ∧ noLateInterim cid l2 ∧
          (∀ e1 ∈ l1, isFullFor cid e1 → ∀ e2 ∈ l2, ¬ isInterimFor cid e2) := by
  intro l1 l2
  induction l1 with
  | nil => simp [noLateInterim]
  | cons e l1 ih =>
    rw [List.cons_append, noLateInterim, noLateInterim, ih]
    constructor
    · rintro ⟨⟨h1, h2, h3⟩, h4⟩
      refine ⟨⟨h1, ?_⟩, h2, ?_⟩
      · intro hf e2 he2
        exact h4 hf e2 (List.mem_append.mpr (Or.inl he2))
      · rintro e1 he1 hf e2 he2
        rcases List.mem_cons.mp he1 with rfl | he1
        · exact h4 hf e2 (List.mem_append.mpr (Or.inr he2))
        · exact h3 e1 he1 hf e2 he2
    · rintro ⟨⟨h1, h2⟩, h3, h4⟩
      refine ⟨⟨h1, h3, ?_⟩, ?_⟩
      · intro e1 he1 hf e2 he2
        exact h4 e1 (List.mem_cons.mpr (Or.inr he1)) hf e2 he2
      · intro hf e2 he2
        rcases List.mem_append.mp he2 with he2 | he2
        · exact h2 hf e2 he2
        · exact h4 e (List.mem_cons_self e l1) hf e2 he2

theorem noLateInterim_of_no_interim {cid : Nat} {l : List Ev}
    (h : ∀ e ∈ l, e.1 ≠ Site.interim) : noLateInterim cid l := by
  induction l with
  | nil => trivial
  | cons e rest ih =>
    refine ⟨ih fun x hx => h x (List.mem_cons.mpr (Or.inr hx)), ?_⟩
    intro _ e2 he2 hint
    exact h e2 (List.mem_cons.mpr (Or.inr he2)) hint.1

theorem noLateInterim_of_all_interim {cid : Nat} {l : List Ev}
    (h : ∀ e ∈ l, e.1 = Site.interim) : noLateInterim cid l := by
  induction l with
  | nil => trivial
  | cons e rest ih =>
    refine ⟨ih fun x hx => h x (List.mem_cons.mpr (Or.inr hx)), ?_⟩
    intro hf
    exact absurd (h e (List.mem_cons_self e rest)) hf.1

/-! Facts about the drain phases. -/

theorem mem_drainTranscriptions {env : Env} {e : Ev} :
    ∀ {l : List Nat}, e ∈ drainTranscriptions env l →
      e.1 = Site.drainT ∧ e.2.segment_id ∈ l ∧
        ∃ text, env.transcript e.2.segment_id = some text ∧ text ≠ "" := by
  intro l
  induction l with
  | nil => intro h; simp [drainTranscriptions] at h
  | cons cid rest ih =>
    intro h
    rw [drainTranscriptions] at h
    rcases List.mem_append.mp h with h | h
    · by_cases hdr : env.drainResolves cid
      · rw [if_pos hdr] at h
        cases htr : env.transcript cid with
        | some text =>
          simp only [htr] at h
          by_cases hte : text = "" ∨ Translator.pyStrip text = ""
          · rw [if_pos hte] at h
            simp at h
          · rw [if_neg hte] at h
            rcases List.mem_singleton.mp h with rfl
            push_neg at hte
            exact ⟨rfl, by simp, text, htr, hte.1⟩
        | none =>
          simp only [htr] at h
          simp at h
      · rw [if_neg hdr] at h
        simp at h
    · obtain ⟨h1, h2, h3⟩ := ih h
      exact ⟨h1, List.mem_cons.mpr (Or.inr h2), h3⟩

theorem mem_drainTranslations {env : Env} {e : Ev} :
    ∀ {l : List (Nat × String)}, e ∈ drainTranslations env l →
      e.1 = Site.drainTr ∧ ∃ p ∈ l, e.2.segment_id = p.1 := by
  intro l
  induction l with
  | nil => intro h; simp [drainTranslations] at h
  | cons p rest ih =>
    obtain ⟨cid, text⟩ := p
    intro h
    rw [drainTranslations] at h
    rcases List.mem_append.mp h with h | h
    · by_cases hdr : env.trDrainResolves cid
      · rw [if_pos hdr] at h
        rcases List.mem_singleton.mp h with rfl
        exact ⟨rfl, (cid, text), List.mem_cons_self _ _, rfl⟩
      · rw [if_neg hdr] at h
        simp at h
    · obtain ⟨h1, q, hq, h2⟩ := ih h
      exact ⟨h1, q, List.mem_cons.mpr (Or.inr hq), h2⟩

end Pipeline

namespace Pipeline

theorem invariant_init : Invariant 0 initState := by
  refine ⟨rfl, ?_, ?_, ?_, ?_, ?_, ?_, ?_, ?_, ?_, ?_⟩ <;>
    simp [initState, interimIds, noLateInterim]

/-- The loop invariant is preserved by one iteration. -/
theorem invariant_step (env : Env) {n : Nat} {s : PState} (h : Invariant n s) :
    Invariant (n + 1) (stepRun env s) := by
  have hc := h.chunk_eq
  have hCH : (stepRun env s).chunk_id = n + 1 := by
    simp only [stepRun_eq, hc]
  have hPT : (stepRun env s).pending_transcriptions =
      (sheddedBacklogOf s).filter (fun c => ! decide (env.tDone c ≤ n + 1)) := by
    simp only [stepRun_eq, hc]
  have hPTR : (stepRun env s).pending_translations =
      (s.pending_translations ++ newSubs env s).filter
        (fun p => ! decide (env.trDone p.1 ≤ n + 1)) := by
    simp only [stepRun_eq, hc]
  have hEV : (stepRun env s).events =
      s.events
        ++ (acceptedNow env s).map (fun c => (Site.interim, ⟨c, textOf env c, ""⟩))
        ++ ((s.pending_translations ++ newSubs env s).filter
              (fun p => decide (env.trDone p.1 ≤ n + 1))).map
            (fun p => (Site.loopFull, ⟨p.1, p.2, env.translated p.1⟩)) := by
    simp only [stepRun_eq, hc]
  -- basic facts about the shedded backlog and the accepted list
  have hP2sub : ∀ c ∈ sheddedBacklogOf s, c ∈ submittedBacklogOf s := by
    intro c hcm
    rw [sheddedBacklogOf] at hcm
    split at hcm
    · exact List.mem_of_mem_drop hcm
    · exact hcm
  have hP2cases : ∀ c ∈ sheddedBacklogOf s, c ∈ s.pending_transcriptions ∨ c = n + 1 := by
    intro c hcm
    rcases List.mem_append.mp (hP2sub c hcm) with h1 | h1
    · exact Or.inl h1
    · right
      rw [hc] at h1
      simpa using h1
  have hP2le : ∀ c ∈ sheddedBacklogOf s, c ≤ n + 1 := by
    intro c hcm
    rcases hP2cases c hcm with h1 | rfl
    · have := h.pt_le c h1
      omega
    · omega
  have hp1pair : (submittedBacklogOf s).Pairwise (· < ·) := by
    rw [submittedBacklogOf]
    refine List.pairwise_append.mpr ⟨h.pt_sorted, List.pairwise_singleton _ _, ?_⟩
    intro a ha b hb
    have h1 := h.pt_le a ha
    have h2 : b = s.chunk_id + 1 := by simpa using hb
    rw [hc] at h2
    omega
  have hP2pair : (sheddedBacklogOf s).Pairwise (· < ·) := by
    rw [sheddedBacklogOf]
    split
    · exact hp1pair.sublist (List.drop_sublist _ _)
    · exact hp1pair
  have hAP2 : ∀ c ∈ acceptedNow env s, c ∈ sheddedBacklogOf s := by
    intro c hcA
    rw [acceptedNow] at hcA
    exact List.mem_of_mem_filter hcA
  have hAdone : ∀ c ∈ acceptedNow env s, env.tDone c ≤ n + 1 := by
    intro c hcA
    rw [acceptedNow, hc] at hcA
    have hb := List.of_mem_filter hcA
    rw [observedAccept] at hb
    have hb2 := (Bool.and_eq_true _ _).mp hb
    exact of_decide_eq_true hb2.1
  have hQ1 : ∀ p : Nat × String, p ∈ s.pending_translations ++ newSubs env s →
      p ∈ s.pending_translations ∨ p.1 ∈ acceptedNow env s := by
    intro p hp
    rcases List.mem_append.mp hp with hp | hp
    · exact Or.inl hp
    · right
      rw [newSubs] at hp
      obtain ⟨c, hcA, rfl⟩ := List.mem_map.mp hp
      exact hcA
  have hQ1le : ∀ p : Nat × String, p ∈ s.pending_translations ++ newSubs env s →
      p.1 ≤ n + 1 := by
    intro p hp
    rcases hQ1 p hp with hp | hp
    · have := h.ptr_le p hp
      omega
    · exact hP2le _ (hAP2 _ hp)
  have hfreshA : ∀ a ∈ acceptedNow env s, ∀ e ∈ s.events, e.2.segment_id ≠ a := by
    intro a haA e he
    rcases hP2cases a (hAP2 a haA) with hold | rfl
    · exact (h.pt_fresh a hold).2 e he
    · have := h.ev_le e he
      omega
  have hfreshAtr : ∀ a ∈ acceptedNow env s, ∀ p ∈ s.pending_translations, p.1 ≠ a := by
    intro a haA p hp
    rcases hP2cases a (hAP2 a haA) with hold | rfl
    · exact (h.pt_fresh a hold).1 p hp
    · have := h.ptr_le p hp
      omega
  -- the interim ids of the new event list
  have hIID : interimIds (stepRun env s).events =
      interimIds s.events ++ acceptedNow env s ++ [] := by
    rw [hEV, interimIds_append, interimIds_append, interimIds_interims, interimIds_fulls]
  refine ⟨hCH, ?_, ?_, ?_, ?_, ?_, ?_, ?_, ?_, ?_, ?_⟩
  -- pt_le
  · intro c hcm
    rw [hPT] at hcm
    exact hP2le c (List.mem_of_mem_filter hcm)
  -- pt_sorted
  · rw [hPT]
    exact hP2pair.sublist (List.filter_sublist _)
  -- ptr_le
  · intro p hp
    rw [hPTR] at hp
    exact hQ1le p (List.mem_of_mem_filter hp)
  -- ev_le
  · intro e he
    rw [hEV] at he
    rcases List.mem_append.mp he with he | he
    · rcases List.mem_append.mp he with he | he
      · have := h.ev_le e he
        omega
      · obtain ⟨c, hcA, rfl⟩ := List.mem_map.mp he
        exact hP2le c (hAP2 c hcA)
    · obtain ⟨p, hp, rfl⟩ := List.mem_map.mp he
      exact hQ1le p (List.mem_of_mem_filter hp)
  -- pt_fresh
  · intro c hcm
    rw [hPT] at hcm
    have hcP2 : c ∈ sheddedBacklogOf s := List.mem_of_mem_filter hcm
    have hcnd : ¬ env.tDone c ≤ n + 1 := by
      have := List.of_mem_filter hcm
      simpa using this
    have hcnotA : c ∉ acceptedNow env s := fun hcA => hcnd (hAdone c hcA)
    constructor
    · intro p hp
      rw [hPTR] at hp
      rcases hQ1 p (List.mem_of_mem_filter hp) with hpold | hpA
      · rcases hP2cases c hcP2 with hold | rfl
        · exact (h.pt_fresh c hold).1 p hpold
        · have := h.ptr_le p hpold
          omega
      · intro hpc
        rw [hpc] at hpA
        exact hcnotA hpA
    · intro e he
      rw [hEV] at he
      rcases List.mem_append.mp he with he | he
      · rcases List.mem_append.mp he with he | he
        · rcases hP2cases c hcP2 with hold | rfl
          · exact (h.pt_fresh c hold).2 e he
          · have := h.ev_le e he
            omega
        · obtain ⟨a, haA, rfl⟩ := List.mem_map.mp he
          intro hac
          simp only at hac
          rw [hac] at haA
          exact hcnotA haA
      · obtain ⟨p, hp, rfl⟩ := List.mem_map.mp he
        simp only
        rcases hQ1 p (List.mem_of_mem_filter hp) with hpold | hpA
        · rcases hP2cases c hcP2 with hold | rfl
          · exact (h.pt_fresh c hold).1 p hpold
          · have := h.ptr_le p hpold
            omega
        · intro hpc
          rw [hpc] at hpA
          exact hcnotA hpA
  -- interim_nodup
  · rw [hIID, List.append_nil]
    refine List.nodup_append.mpr ⟨h.interim_nodup, ?_, ?_⟩
    · rw [acceptedNow]
      exact (hP2pair.imp Nat.ne_of_lt).filter _
    · intro a ha haA
      obtain ⟨e, he, _, hid⟩ := mem_of_mem_interimIds ha
      exact hfreshA a haA e he hid
  -- ptr_has_interim
  · intro p hp
    rw [hPTR] at hp
    rw [hIID, List.append_nil, List.mem_append]
    rcases hQ1 p (List.mem_of_mem_filter hp) with hpold | hpA
    · exact Or.inl (h.ptr_has_interim p hpold)
    · exact Or.inr hpA
  -- full_has_interim
  · intro e he hsite
    rw [hEV] at he
    rw [hIID, List.append_nil, List.mem_append]
    rcases List.mem_append.mp he with he | he
    · rcases List.mem_append.mp he with he | he
      · exact Or.inl (h.full_has_interim e he hsite)
      · obtain ⟨a, haA, rfl⟩ := List.mem_map.mp he
        simp at hsite
    · obtain ⟨p, hp, rfl⟩ := List.mem_map.mp he
      simp only
      rcases hQ1 p (List.mem_of_mem_filter hp) with hpold | hpA
      · exact Or.inl (h.ptr_has_interim p hpold)
      · exact Or.inr hpA
  -- no_late
  · intro cid
    rw [hEV]
    rw [noLateInterim_append cid]
    refine ⟨?_, ?_, ?_⟩
    · rw [noLateInterim_append cid]
      refine ⟨h.no_late cid, ?_, ?_⟩
      · refine noLateInterim_of_all_interim ?_
        intro e he
        obtain ⟨a, _, rfl⟩ := List.mem_map.mp he
        rfl
      · intro e1 he1 hf e2 he2 hint
        obtain ⟨a, haA, rfl⟩ := List.mem_map.mp he2
        have hida : a = cid := hint.2
        rw [hida] at haA
        exact hfreshA cid haA e1 he1 hf.2
    · refine noLateInterim_of_no_interim ?_
      intro e he
      obtain ⟨p, _, rfl⟩ := List.mem_map.mp he
      simp
    · intro e1 _ _ e2 he2 hint
      obtain ⟨p, _, rfl⟩ := List.mem_map.mp he2
      exact absurd hint.1 (by simp)
  -- sites_ok
  · intro e he
    rw [hEV] at he
    rcases List.mem_append.mp he with he | he
    · rcases List.mem_append.mp he with he | he
      · exact h.sites_ok e he
      · obtain ⟨a, _, rfl⟩ := List.mem_map.mp he
        exact Or.inl rfl
    · obtain ⟨p, _, rfl⟩ := List.mem_map.mp he
      exact Or.inr rfl

/-- The loop invariant holds at every reachable state. -/
theorem invariant_runAux (env : Env) : ∀ n, Invariant n (runAux env n)
  | 0 => invariant_init
  | n + 1 => invariant_step env (invariant_runAux env n)

end Pipeline

namespace Pipeline

theorem stepRun_chunk (env : Env) (s : PState) :
    (stepRun env s).chunk_id = s.chunk_id + 1 := by rw [stepRun_eq]

theorem stepRun_pt (env : Env) (s : PState) :
    (stepRun env s).pending_transcriptions =
      (sheddedBacklogOf s).filter (fun c => ! decide (env.tDone c ≤ s.chunk_id + 1)) := by
  rw [stepRun_eq]

theorem stepRun_ptr (env : Env) (s : PState) :
    (stepRun env s).pending_translations =
      (s.pending_translations ++ newSubs env s).filter
        (fun p => ! decide (env.trDone p.1 ≤ s.chunk_id + 1)) := by
  rw [stepRun_eq]

theorem stepRun_events (env : Env) (s : PState) :
    (stepRun env s).events =
      s.events
        ++ (acceptedNow env s).map (fun c => (Site.interim, ⟨c, textOf env c, ""⟩))
        ++ ((s.pending_translations ++ newSubs env s).filter
              (fun p => decide (env.trDone p.1 ≤ s.chunk_id + 1))).map
            (fun p => (Site.loopFull, ⟨p.1, p.2, env.translated p.1⟩)) := by
  rw [stepRun_eq]

theorem stepRun_subs (env : Env) (s : PState) :
    (stepRun env s).translation_submissions =
      s.translation_submissions ++ newSubs env s := by
  rw [stepRun_eq]

theorem stepRun_assigned (env : Env) (s : PState) :
    (stepRun env s).assigned = s.assigned ++ [s.chunk_id + 1] := by
  rw [stepRun_eq]

theorem runPipeline_eq (env : Env) (n : Nat) :
    runPipeline env n =
      (runAux env n).events
        ++ drainTranscriptions env (runAux env n).pending_transcriptions
        ++ drainTranslations env (runAux env n).pending_translations := rfl

theorem mem_sheddedBacklogOf {s : PState} {c : Nat} (h : c ∈ sheddedBacklogOf s) :
    c ∈ submittedBacklogOf s := by
  rw [sheddedBacklogOf] at h
  split at h
  · exact List.mem_of_mem_drop h
  · exact h

theorem mem_newSubs {env : Env} {s : PState} {p : Nat × String}
    (h : p ∈ newSubs env s) : p.1 ∈ acceptedNow env s := by
  rw [newSubs] at h
  obtain ⟨c, hc, rfl⟩ := List.mem_map.mp h
  exact hc

theorem mem_acceptedNow {env : Env} {s : PState} {c : Nat}
    (h : c ∈ acceptedNow env s) : c ∈ sheddedBacklogOf s := by
  rw [acceptedNow] at h
  exact List.mem_of_mem_filter h

/-- Once a segment is dead, one more iteration keeps it dead. -/
theorem dead_step (env : Env) {cid : Nat} {s : PState} (hd : DeadFor cid s) :
    DeadFor cid (stepRun env s) := by
  obtain ⟨h1, h2, h3, h4⟩ := hd
  have hsub : cid ∉ submittedBacklogOf s := by
    rw [submittedBacklogOf]
    intro hm
    rcases List.mem_append.mp hm with hm | hm
    · exact h1 hm
    · have : cid = s.chunk_id + 1 := by simpa using hm
      omega
  have hP2 : cid ∉ sheddedBacklogOf s := fun hm => hsub (mem_sheddedBacklogOf hm)
  have hA : cid ∉ acceptedNow env s := fun hm => hP2 (mem_acceptedNow hm)
  have hQ1 : ∀ p ∈ s.pending_translations ++ newSubs env s, p.1 ≠ cid := by
    intro p hp
    rcases List.mem_append.mp hp with hp | hp
    · exact h2 p hp
    · intro hc
      rw [← hc] at hA
      exact hA (mem_newSubs hp)
  refine ⟨?_, ?_, ?_, ?_⟩
  · rw [stepRun_pt]
    intro hm
    exact hP2 (List.mem_of_mem_filter hm)
  · rw [stepRun_ptr]
    intro p hp
    exact hQ1 p (List.mem_of_mem_filter hp)
  · rw [stepRun_events]
    intro e he
    rcases List.mem_append.mp he with he | he
    · rcases List.mem_append.mp he with he | he
      · exact h3 e he
      · obtain ⟨a, haA, rfl⟩ := List.mem_map.mp he
        intro hc
        simp only at hc
        rw [hc] at haA
        exact hA haA
    · obtain ⟨p, hp, rfl⟩ := List.mem_map.mp he
      exact hQ1 p (List.mem_of_mem_filter hp)
  · rw [stepRun_chunk]
    omega

/-- Deadness persists to every later iteration. -/
theorem dead_steps (env : Env) {cid t : Nat} (hd : DeadFor cid (runAux env t)) :
    ∀ m, t ≤ m → DeadFor cid (runAux env m) := by
  intro m
  induction m with
  | zero =>
    intro h0
    have ht : t = 0 := by omega
    rw [← ht]
    exact hd
  | succ m ih =>
    intro hle
    rcases Nat.lt_or_ge t (m + 1) with hlt | hge
    · exact dead_step env (ih (by omega))
    · have ht : t = m + 1 := by omega
      rw [← ht]
      exact hd

/-- A segment dead at the end of the loop gets no event at all, drain
phases included. -/
theorem dead_no_pipeline_events (env : Env) {cid n : Nat}
    (hd : DeadFor cid (runAux env n)) :
    ∀ e ∈ runPipeline env n, e.2.segment_id ≠ cid := by
  intro e he
  rw [runPipeline_eq] at he
  rcases List.mem_append.mp he with he | he
  · rcases List.mem_append.mp he with he | he
    · exact hd.2.2.1 e he
    · obtain ⟨_, hmem, _⟩ := mem_drainTranscriptions he
      intro hid
      rw [hid] at hmem
      exact hd.1 hmem
  · obtain ⟨_, p, hp, hpe⟩ := mem_drainTranslations he
    intro hid
    exact hd.2.1 p hp (by rw [← hpe, hid])

/-- Claim C4: at any submission where the tracked backlog exceeds 10
entries, the shedding policy leaves at most 6 entries (in fact 5), the
discarded entries are exactly the oldest (smallest ids), and a shed
segment never produces any UpdateEvent for the rest of the run, drain
included. -/
theorem backlog_shedding (env : Env) (n t : Nat) (ht : t < n)
    (hover : 10 < (submittedBacklog env t).length) :
    (shedBacklog env t).length ≤ 6
  ∧ (runAux env (t + 1)).pending_transcriptions.length ≤ 6
  ∧ (∀ a ∈ shedDropped env t, ∀ b ∈ shedBacklog env t, a < b)
  ∧ (∀ c ∈ shedDropped env t, ∀ e ∈ runPipeline env n, e.2.segment_id ≠ c) := by
  have hI := invariant_runAux env t
  have hover2 : 10 < (submittedBacklogOf (runAux env t)).length := hover
  have hB : shedBacklog env t =
      (submittedBacklog env t).drop ((submittedBacklog env t).length - 5) := by
    simp only [shedBacklog, sheddedBacklogOf, submittedBacklog]
    rw [if_pos hover2]
  have hD : shedDropped env t =
      (submittedBacklog env t).take ((submittedBacklog env t).length - 5) := by
    simp only [shedDropped, sheddedDroppedOf, submittedBacklog]
    rw [if_pos hover2]
  have hBlen : (shedBacklog env t).length = 5 := by
    rw [hB, List.length_drop]
    omega
  have hp1 : (submittedBacklog env t).Pairwise (· < ·) := by
    rw [submittedBacklog, submittedBacklogOf]
    refine List.pairwise_append.mpr ⟨hI.pt_sorted, List.pairwise_singleton _ _, ?_⟩
    intro a ha b hb
    have h1 := hI.pt_le a ha
    have h2 : b = (runAux env t).chunk_id + 1 := by simpa using hb
    rw [hI.chunk_eq] at h2
    omega
  have hsplit : submittedBacklog env t = shedDropped env t ++ shedBacklog env t := by
    rw [hB, hD, List.take_append_drop]
  have hcross : ∀ a ∈ shedDropped env t, ∀ b ∈ shedBacklog env t, a < b := by
    have := hsplit ▸ hp1
    exact fun a ha b hb => (List.pairwise_append.mp this).2.2 a ha b hb
  have hsub : submittedBacklog env t =
      (runAux env t).pending_transcriptions ++ [(runAux env t).chunk_id + 1] := rfl
  have hdold : ∀ c ∈ shedDropped env t, c ∈ (runAux env t).pending_transcriptions := by
    intro c hcm
    rw [hD, hsub, List.length_append] at hcm
    simp only [List.length_singleton] at hcm
    rw [List.take_append_of_le_length (by omega)] at hcm
    exact List.mem_of_mem_take hcm
  refine ⟨by omega, ?_, hcross, ?_⟩
  · rw [runAux_succ, stepRun_pt]
    have hle := List.length_filter_le
      (fun c => ! decide (env.tDone c ≤ (runAux env t).chunk_id + 1))
      (sheddedBacklogOf (runAux env t))
    have hBlen2 : (sheddedBacklogOf (runAux env t)).length = 5 := hBlen
    omega
  · intro c hcm e he
    have hcold := hdold c hcm
    have hcle : c ≤ t := hI.pt_le c hcold
    have hckept : c ∉ shedBacklog env t := by
      intro hk
      exact absurd (hcross c hcm c hk) (by omega)
    have hdead : DeadFor c (runAux env (t + 1)) := by
      have hfr := hI.pt_fresh c hcold
      have hA : c ∉ acceptedNow env (runAux env t) := by
        intro hmem
        exact hckept (mem_acceptedNow hmem)
      have hQ1 : ∀ p ∈ (runAux env t).pending_translations ++ newSubs env (runAux env t),
          p.1 ≠ c := by
        intro p hp
        rcases List.mem_append.mp hp with hp | hp
        · exact hfr.1 p hp
        · intro hc
          rw [← hc] at hA
          exact hA (mem_newSubs hp)
      refine ⟨?_, ?_, ?_, ?_⟩
      · rw [runAux_succ, stepRun_pt]
        intro hm
        exact hckept (List.mem_of_mem_filter hm)
      · rw [runAux_succ, stepRun_ptr]
        intro p hp
        exact hQ1 p (List.mem_of_mem_filter hp)
      · rw [runAux_succ, stepRun_events]
        intro e2 he2
        rcases List.mem_append.mp he2 with he2 | he2
        · rcases List.mem_append.mp he2 with he2 | he2
          · exact hfr.2 e2 he2
          · obtain ⟨a, haA, rfl⟩ := List.mem_map.mp he2
            intro hc
            simp only at hc
            rw [hc] at haA
            exact hA haA
        · obtain ⟨p, hp, rfl⟩ := List.mem_map.mp he2
          exact hQ1 p (List.mem_of_mem_filter hp)
      · rw [runAux_succ, stepRun_chunk, hI.chunk_eq]
        omega
    exact dead_no_pipeline_events env (dead_steps env hdead n (by omega)) e he

/-- Witness for C4 on the stalled run: the 11th submission overflows
the backlog, the six oldest segments are shed, five entries remain,
and segment 1 never appears in any event of the run. -/
theorem backlog_shedding_witness :
    10 < (submittedBacklog envStalled 10).length
  ∧ (shedBacklog envStalled 10).length ≤ 6
  ∧ shedDropped envStalled 10 = [1, 2, 3, 4, 5, 6]
  ∧ shedBacklog envStalled 10 = [7, 8, 9, 10, 11]
  ∧ (runPipeline envStalled 11).filter (fun e => decide (e.2.segment_id = 1)) = [] := by
  have H := backlog_shedding envStalled 11 10 (by omega) (by decide)
  refine ⟨by decide, H.1, by decide, by decide, ?_⟩
  refine List.filter_eq_nil_iff.mpr ?_
  intro e he
  simpa using H.2.2.2 1 (by decide) e he

end Pipeline

namespace Pipeline

theorem chain_succ_range' : ∀ (n s : Nat),
    List.Chain' (fun a b => b = a + 1) (List.range' s n)
  | 0, _ => List.chain'_nil
  | n + 1, s => by
    rw [List.range'_succ]
    refine List.chain'_cons'.mpr ⟨?_, chain_succ_range' n (s + 1)⟩
    intro y hy
    cases n with
    | zero => simp [List.range'] at hy
    | succ k =>
      rw [List.range'_succ] at hy
      simp at hy
      omega

/-- Claim C5: across any run, the `chunk_id` values assigned to the
consumed audio segments are exactly 1, 2, ..., n: consecutive,
strictly increasing by exactly 1, and never repeating. -/
theorem segment_ids_consecutive (env : Env) (n : Nat) :
    (runAux env n).assigned = List.range' 1 n
  ∧ List.Chain' (fun a b => b = a + 1) (runAux env n).assigned
  ∧ (runAux env n).assigned.Nodup := by
  have hass : ∀ m, (runAux env m).assigned = List.range' 1 m := by
    intro m
    induction m with
    | zero => rfl
    | succ m ih =>
      rw [runAux_succ, stepRun_assigned, ih, chunkId_runAux, List.range'_concat]
      simp
      omega
  refine ⟨hass n, ?_, ?_⟩
  · rw [hass n]
    exact chain_succ_range' n 1
  · rw [hass n]
    exact List.nodup_range' _ _

/-- Claim C6: a segment whose transcription resolves to the empty
string (silence, filtered hallucination, or caught engine failure —
the latter modelled as `none`) yields no UpdateEvent anywhere in the
run and is never submitted to the translation stage; and an engine
text rejected by the hallucination filter is normalized by
`transcribe` to exactly that empty string. -/
theorem empty_transcription_dropped (env : Env) (n cid : Nat)
    (h : env.transcript cid = some "" ∨ env.transcript cid = none) :
    (∀ e ∈ runPipeline env n, e.2.segment_id ≠ cid)
  ∧ (∀ p ∈ (runAux env n).translation_submissions, p.1 ≠ cid)
  ∧ (∀ text, Transcriber.is_hallucination text = true →
      Transcriber.transcribe text = "") := by
  have hnotA : ∀ s : PState, cid ∉ acceptedNow env s := by
    intro s hmem
    rw [acceptedNow] at hmem
    have hb := List.of_mem_filter hmem
    rw [observedAccept] at hb
    rcases h with h | h <;> simp [h] at hb
  have main : ∀ m, (∀ e ∈ (runAux env m).events, e.2.segment_id ≠ cid)
      ∧ (∀ p ∈ (runAux env m).pending_translations, p.1 ≠ cid)
      ∧ (∀ p ∈ (runAux env m).translation_submissions, p.1 ≠ cid) := by
    intro m
    induction m with
    | zero =>
      refine ⟨?_, ?_, ?_⟩ <;> intro x hx <;> simp [runAux, initState] at hx
    | succ m ih =>
      obtain ⟨ih1, ih2, ih3⟩ := ih
      have hNS : ∀ p ∈ newSubs env (runAux env m), p.1 ≠ cid := by
        intro p hp hc
        rw [← hc] at hnotA
        exact hnotA _ (mem_newSubs hp)
      have hQ1 : ∀ p ∈ (runAux env m).pending_translations ++ newSubs env (runAux env m),
          p.1 ≠ cid := by
        intro p hp
        rcases List.mem_append.mp hp with hp | hp
        · exact ih2 p hp
        · exact hNS p hp
      refine ⟨?_, ?_, ?_⟩
      · intro e he
        rw [runAux_succ, stepRun_events] at he
        rcases List.mem_append.mp he with he | he
        · rcases List.mem_append.mp he with he | he
          · exact ih1 e he
          · obtain ⟨a, haA, rfl⟩ := List.mem_map.mp he
            intro hc
            simp only at hc
            rw [hc] at haA
            exact hnotA _ haA
        · obtain ⟨p, hp, rfl⟩ := List.mem_map.mp he
          exact hQ1 p (List.mem_of_mem_filter hp)
      · intro p hp
        rw [runAux_succ, stepRun_ptr] at hp
        exact hQ1 p (List.mem_of_mem_filter hp)
      · intro p hp
        rw [runAux_succ, stepRun_subs] at hp
        rcases List.mem_append.mp hp with hp | hp
        · exact ih3 p hp
        · exact hNS p hp
  obtain ⟨m1, m2, m3⟩ := main n
  refine ⟨?_, m3, ?_⟩
  · intro e he
    rw [runPipeline_eq] at he
    rcases List.mem_append.mp he with he | he
    · rcases List.mem_append.mp he with he | he
      · exact m1 e he
      · obtain ⟨_, _, text, htx, hne⟩ := mem_drainTranscriptions he
        intro hid
        rw [hid] at htx
        rcases h with h | h
        · rw [h] at htx
          exact hne (by injection htx with h2; exact h2.symm)
        · rw [h] at htx
          exact Option.noConfusion htx
    · obtain ⟨_, p, hp, hpe⟩ := mem_drainTranslations he
      intro hid
      exact m2 p hp (by rw [← hpe, hid])
  · intro text htx
    simp [Transcriber.transcribe, htx]

/-- Witness for C6: with every transcription resolving to the empty
string, the run and the ghost submission log stay silent, and the
six-fold "once" hallucination is normalized to the empty transcript. -/
theorem empty_transcription_dropped_witness :
    (runPipeline envSilent 1).filter (fun e => decide (e.2.segment_id = 1)) = []
  ∧ ((runAux envSilent 1).translation_submissions).filter
      (fun p => decide (p.1 = 1)) = []
  ∧ Transcriber.transcribe "once once once once once once" = "" := by
  have H := empty_transcription_dropped envSilent 1 1 (Or.inl rfl)
  refine ⟨List.filter_eq_nil_iff.mpr ?_, List.filter_eq_nil_iff.mpr ?_,
    H.2.2 _ (by decide)⟩
  · intro e he
    simpa using H.1 e he
  · intro p hp
    simpa using H.2.1 p hp

end Pipeline

namespace Pipeline

theorem interimCount_of_no_id {l : List Ev} {cid : Nat}
    (h : ∀ e ∈ l, e.2.segment_id ≠ cid) : interimCount l cid = 0 := by
  have hf : l.filter (fun e => decide (isInterimFor cid e)) = [] := by
    refine List.filter_eq_nil_iff.mpr ?_
    intro e he
    simp [isInterimFor]
    intro _
    exact h e he
  rw [interimCount, hf]
  rfl

/-- A loop iteration extends the partial-event id list by exactly the
accepted cids of that iteration. -/
theorem interimIds_stepRun (env : Env) (s : PState) :
    interimIds (stepRun env s).events = interimIds s.events ++ acceptedNow env s := by
  rw [stepRun_events, interimIds_append, interimIds_append, interimIds_interims,
    interimIds_fulls, List.append_nil]

/-- Once a partial event for a segment has been emitted, it stays in
the event log of every later iteration. -/
theorem interim_mem_steps (env : Env) {cid t : Nat}
    (h : cid ∈ interimIds (runAux env t).events) :
    ∀ m, t ≤ m → cid ∈ interimIds (runAux env m).events := by
  intro m
  induction m with
  | zero =>
    intro h0
    have ht : t = 0 := by omega
    rw [← ht]
    exact h
  | succ m ih =>
    intro hle
    rcases Nat.lt_or_ge t (m + 1) with hlt | hge
    · rw [runAux_succ, interimIds_stepRun]
      exact List.mem_append.mpr (Or.inl (ih (by omega)))
    · have ht : t = m + 1 := by omega
      rw [← ht]
      exact h

/-- Claim C1 (amended): for every run and segment, at most one partial
(transcription-only) UpdateEvent is emitted for the segment; no
partial for a segment ever follows a full event for it; a segment
observed completed with non-empty text during a `RUNNING`-phase poll
gets exactly one partial event; a segment whose transcription is
still pending when draining starts (i.e. one that resolves only
during the drain phase, if at all) gets no partial event; and any
segment with a translation-pool event (an in-loop full update or a
drained translation) has exactly one partial event, emitted before
it. -/
theorem interim_event_discipline (env : Env) (n cid : Nat) :
    interimCount (runPipeline env n) cid ≤ 1
  ∧ noLateInterim cid (runPipeline env n)
  ∧ (acceptedInLoop env n cid → interimCount (runPipeline env n) cid = 1)
  ∧ (cid ∈ (runAux env n).pending_transcriptions →
      interimCount (runPipeline env n) cid = 0)
  ∧ (∀ e ∈ runPipeline env n, (e.1 = Site.loopFull ∨ e.1 = Site.drainTr) →
      e.2.segment_id = cid → interimCount (runPipeline env n) cid = 1) := by
  have hI := invariant_runAux env n
  have hdt : ∀ e ∈ drainTranscriptions env (runAux env n).pending_transcriptions,
      e.1 ≠ Site.interim := by
    intro e he
    rw [(mem_drainTranscriptions he).1]
    simp
  have hdtr : ∀ e ∈ drainTranslations env (runAux env n).pending_translations,
      e.1 ≠ Site.interim := by
    intro e he
    rw [(mem_drainTranslations he).1]
    simp
  have hcount : interimCount (runPipeline env n) cid =
      interimCount (runAux env n).events cid := by
    rw [runPipeline_eq, interimCount_append, interimCount_append,
      interimCount_of_no_interim cid hdt, interimCount_of_no_interim cid hdtr]
    omega
  have hle1 : interimCount (runAux env n).events cid ≤ 1 := by
    rw [interimCount_eq_count]
    exact List.nodup_iff_count_le_one.mp hI.interim_nodup cid
  have hone : cid ∈ interimIds (runAux env n).events →
      interimCount (runPipeline env n) cid = 1 := by
    intro hmem
    have hpos : 1 ≤ interimCount (runAux env n).events cid := by
      rw [interimCount_eq_count]
      exact List.count_pos_iff.mpr hmem
    omega
  refine ⟨by omega, ?_, ?_, ?_, ?_⟩
  · rw [runPipeline_eq]
    refine (noLateInterim_append cid _ _).mpr
      ⟨(noLateInterim_append cid _ _).mpr
        ⟨hI.no_late cid, noLateInterim_of_no_interim hdt, ?_⟩,
       noLateInterim_of_no_interim hdtr, ?_⟩
    · intro e1 _ _ e2 he2 hint
      exact hdt e2 he2 hint.1
    · intro e1 _ _ e2 he2 hint
      exact hdtr e2 he2 hint.1
  · rintro ⟨t, ht, hacc⟩
    have h1 : cid ∈ interimIds (runAux env (t + 1)).events := by
      rw [runAux_succ, interimIds_stepRun]
      exact List.mem_append.mpr (Or.inr hacc)
    exact hone (interim_mem_steps env h1 n (by omega))
  · intro hmem
    rw [hcount]
    exact interimCount_of_no_id fun e he => (hI.pt_fresh cid hmem).2 e he
  · intro e he hsite hid
    rw [runPipeline_eq] at he
    rcases List.mem_append.mp he with he | he
    · rcases List.mem_append.mp he with he | he
      · rcases hsite with hfull | hdr
        · exact hone (hid ▸ hI.full_has_interim e he hfull)
        · rcases hI.sites_ok e he with hs | hs <;> rw [hdr] at hs <;> simp at hs
      · have := (mem_drainTranscriptions he).1
        rcases hsite with hfull | hdr
        · rw [hfull] at this
          simp at this
        · rw [hdr] at this
          simp at this
    · obtain ⟨_, p, hp, hpe⟩ := mem_drainTranslations he
      refine hone ?_
      rw [← hid, hpe]
      exact hI.ptr_has_interim p hp

/-- Counterexample to C1 as stated: in the one-chunk run of
`envDrainOnly`, segment 1's transcription resolves (only) during the
drain phase with the non-empty text "hello", yet the pipeline emits
zero partial events for it — the drain phase emits a single full
UpdateEvent directly (src/main.py:179-184), so the claimed
"exactly one partial before the full" fails for drain-resolved
segments. -/
theorem drain_resolved_segment_no_interim_cex :
    runPipeline envDrainOnly 1 = [(Site.drainT, ⟨1, "hello", "hola"⟩)]
  ∧ interimCount (runPipeline envDrainOnly 1) 1 = 0 := by
  constructor <;> decide

/-- Witness for the amended C1: segment 1 of `envOneFull` is accepted
by the poll of the first iteration and gets exactly one partial, its
in-loop full event also certifies exactly one partial, and no partial
follows a full; segment 2 of the stalled run is still pending at
drain time and has no partial event. -/
theorem interim_event_discipline_witness :
    interimCount (runPipeline envOneFull 2) 1 = 1
  ∧ noLateInterim 1 (runPipeline envOneFull 2)
  ∧ interimCount (runPipeline envStalled 3) 2 = 0 := by
  have H1 := interim_event_discipline envOneFull 2 1
  have H2 := interim_event_discipline envStalled 3 2
  have hacc : acceptedInLoop envOneFull 2 1 := ⟨0, by omega, by decide⟩
  have h1a : interimCount (runPipeline envOneFull 2) 1 = 1 := H1.2.2.1 hacc
  have _ : interimCount (runPipeline envOneFull 2) 1 = 1 :=
    H1.2.2.2.2 (Site.loopFull, ⟨1, "hi", "yo"⟩) (by decide) (Or.inl rfl) rfl
  exact ⟨h1a, H1.2.1, H2.2.2.2.1 (by decide)⟩

/-- Claim C9: with three segments submitted in order and their
transcriptions observed completed in reverse order by three distinct
polling passes, the partial UpdateEvents are emitted with segment ids
3, 2, 1 — completion-observation order, not submission order. -/
theorem reverse_completion_interim_order :
    interimIds (runPipeline envReverse 5) = [3, 2, 1] := by decide

end Pipeline
